import Mathlib

/-!
# Verification of `notiontree/hierarchy.py`

Shallow embedding of the notion-tree exporter
(`src/notiontree/hierarchy.py`) and proofs about it.

The program mirrors a local directory tree of Markdown files into a
remote page hierarchy in three phases: build a local hierarchy of page
descriptors (`build_local_hierarchy`), create remote stub pages
(`create_notion_hierarchy`), rewrite parenthesized links in each
document (`update_link_notion_hierarchy` / `_resolve_link` /
`_resolve_github_wiki_link`) and re-parent the pages in reverse order
(`move_pages_notion_hierarchy`).

External collaborators (the filesystem, the Notion client) are modelled
as data: the filesystem as an inductive directory tree, remote pages as
abstract handles, and remote calls as emitted events.
-/

namespace NotionTree

/-! ## Python string primitives

Models of the Python `str` operations the source uses
(`startswith`, `endswith`, `split`, `replace`, `%`-free concatenation),
written over `List Char` so that they compute by kernel reduction and
can be reasoned about by list induction.
-/

/-- Python `s.startswith(pre)`. -/
def strStartsWith (s pre : String) : Bool := pre.data.isPrefixOf s.data

/-- Python `s.endswith(suf)`. -/
def strEndsWith (s suf : String) : Bool := suf.data.isSuffixOf s.data

/-- Python `s.split(sep)` for a one-character separator (as used by
`normpath`): `""` splits to `[""]`, separators at the ends produce empty
components. -/
def splitOnChar (sep : Char) : List Char → List (List Char)
  | [] => [[]]
  | c :: cs =>
      let r := splitOnChar sep cs
      if c = sep then [] :: r
      else
        match r with
        | h :: t => (c :: h) :: t
        | [] => [[c]]

/-- Python `s.replace(pat, repl)` (all non-overlapping occurrences, left
to right), with a fuel argument (the initial length of `s`) so that the
recursion is structural; an empty pattern replaces nothing, which agrees
with Python when `repl` is itself empty (the only use in the source). -/
def replaceAllFuel (pat repl : List Char) : Nat → List Char → List Char
  | _, [] => []
  | 0, s => s
  | fuel + 1, c :: cs =>
      if pat ≠ [] ∧ pat.isPrefixOf (c :: cs) then
        repl ++ replaceAllFuel pat repl fuel ((c :: cs).drop pat.length)
      else c :: replaceAllFuel pat repl fuel cs

/-- Python `s.replace(pat, repl)` on strings. -/
def strReplace (s pat repl : String) : String :=
  ⟨replaceAllFuel pat.data repl.data s.data.length s.data⟩

/-! ## POSIX path model

The source uses `os.path.join`, `os.path.dirname` and
`os.path.normpath`; these are models of the posixpath versions
(separator `/`), written over `List Char` so that they can be reasoned
about by list induction.
-/

/-- Core of `os.path.join(a, b)` (posixpath, two arguments): if `b` is
absolute it wins; otherwise it is appended, inserting `/` unless `a` is
empty or already ends with `/`. -/
def joinCs (a b : List Char) : List Char :=
  if b.head? = some '/' then b
  else if a = [] ∨ a.getLast? = some '/' then a ++ b
  else a ++ '/' :: b

/-- Model of `os.path.join` on strings. -/
def pathJoin (a b : String) : String := ⟨joinCs a.data b.data⟩

/-- The character is not the path separator. -/
def neSlash (c : Char) : Bool := c ≠ '/'

/-- The character is the path separator. -/
def eqSlash (c : Char) : Bool := c = '/'

/-- Core of `os.path.dirname(p)` (posixpath): everything up to the last
`/`; the trailing slashes are stripped unless the head is all slashes. -/
def dirnameCs (p : List Char) : List Char :=
  let r := p.reverse.dropWhile neSlash
  if r.all eqSlash then r.reverse
  else (r.dropWhile eqSlash).reverse

/-- Model of `os.path.dirname` on strings. -/
def dirname (p : String) : String := ⟨dirnameCs p.data⟩

/-- Model of `os.path.normpath(p)` (posixpath): collapse repeated separators and
`.` components, resolve `..` where possible; mirrors the CPython
implementation for the separator `/`. -/
def normpath (p : String) : String :=
  if p = "" then "."
  else
    let cs := p.data
    let initialSlashes : Nat :=
      if strStartsWith p "/" then
        (if strStartsWith p "//" && !(strStartsWith p "///") then 2 else 1)
      else 0
    let comps := splitOnChar '/' cs
    let newComps := comps.foldl (fun acc comp =>
      if comp = [] ∨ comp = ['.'] then acc
      else if comp ≠ ['.', '.'] ∨ (initialSlashes = 0 ∧ acc = [])
              ∨ (acc ≠ [] ∧ acc.getLast? = some ['.', '.']) then acc ++ [comp]
      else if acc ≠ [] then acc.dropLast
      else acc) []
    let res := List.replicate initialSlashes '/' ++ (newComps.intersperse ['/']).flatten
    if res = [] then "." else ⟨res⟩

/-! ## Page descriptors (`PageType`, `Page`) -/

/-- The `PageType` enum from the source (`ROOT`, `NODE`, `LEAVE`). -/
inductive PageType where
  | ROOT
  | NODE
  | LEAVE
deriving DecidableEq, Repr

/-- The `Page` descriptor: its kind, the local path of the owning index
document (empty for the root) and the local path it represents.  The
`notion_url`/`notion_page` fields of the Python class are never set by
the functions modelled here and are omitted. -/
structure Page where
  type : PageType
  parent_filename : String
  filename : String
deriving DecidableEq, Repr

/-- Helper for `Page.title`: for an index file the base name of the containing
directory, otherwise the file's base name (`os.path.basename` is the
part after the last `/`). -/
def basename (p : String) : String :=
  ⟨(p.data.reverse.takeWhile (fun c => c ≠ '/')).reverse⟩

/-- Predicate `Page.is_index` from the source. -/
def Page.is_index (p : Page) : Bool :=
  p.filename = "index.md" || strEndsWith p.filename "/index.md"

/-- Property `Page.title` from the source. -/
def Page.title (p : Page) : String :=
  if p.is_index then basename (dirname p.filename) else basename p.filename

/-! ## Filesystem model and `os.walk`

The local filesystem is a finite directory tree: each directory has a
name, a listing of plain file names and a list of subdirectories.  The
mutual inductive (tree/forest) presentation keeps every recursion below
structural, so all functions compute by kernel reduction. -/

mutual
/-- A directory: its name, its plain files and its subdirectories. -/
inductive DirTree where
  | mk (name : String) (files : List String) (subdirs : Forest)

/-- A list of subdirectories. -/
inductive Forest where
  | nil
  | cons (d : DirTree) (ds : Forest)
end

def DirTree.name : DirTree → String
  | .mk n _ _ => n

def DirTree.files : DirTree → List String
  | .mk _ fs _ => fs

def DirTree.subdirs : DirTree → Forest
  | .mk _ _ ds => ds

mutual
/-- Model of `os.walk(path)` (top-down) on the tree model, with the source's
pruning baked in: `build_local_hierarchy` removes the first `".git"`
entry from `dirnames` before the walk descends (`dirnames.remove`), so
the walk skips the first subdirectory named `".git"` of every visited
directory.  Each emitted entry is `(dirpath, filenames)`; `dirnames` is
not otherwise used by the source. -/
def osWalk (p : String) : DirTree → List (String × List String)
  | .mk _ files subs => (p, files) :: walkForest p true subs

/-- Walk a list of sibling subdirectories; `canSkip` is true while the
one `".git"` removal of the enclosing directory is still available. -/
def walkForest (p : String) : Bool → Forest → List (String × List String)
  | _, .nil => []
  | canSkip, .cons d ds =>
      if canSkip && d.name = ".git" then walkForest p false ds
      else osWalk (pathJoin p d.name) d ++ walkForest p canSkip ds
end

/-- The body of the `for walk_index, (dirpath, dirnames, filenames) in
enumerate(os.walk(path))` loop of `build_local_hierarchy`: entry 0
yields the `ROOT` page, every later entry a `NODE` page whose parent is
`os.path.join(os.path.dirname(dirpath), "index.md")`, followed by one
`LEAVE` page per Markdown file other than `index.md`. -/
def hierarchyOfEntries : Nat → List (String × List String) → List Page
  | _, [] => []
  | walkIndex, (dirpath, filenames) :: rest =>
      let node := pathJoin dirpath "index.md"
      (if walkIndex = 0 then Page.mk .ROOT "" node
       else Page.mk .NODE (pathJoin (dirname dirpath) "index.md") node)
      :: ((filenames.filter (fun f => f ≠ "index.md" && strEndsWith f ".md")).map
            (fun f => Page.mk .LEAVE node (pathJoin dirpath f))
          ++ hierarchyOfEntries (walkIndex + 1) rest)

/-- Function `build_local_hierarchy(path)` from the source, with the filesystem
under `path` given by `t`. -/
def build_local_hierarchy (path : String) (t : DirTree) : List Page :=
  hierarchyOfEntries 0 (osWalk path t)

/-! ## Specification-side hierarchy

A declarative generation of the page descriptors, following the spec's
words instead of the traversal index and `dirname` arithmetic: the root
directory yields the single `ROOT` descriptor; every other directory a
`NODE` descriptor whose `parent_filename` is its parent directory's
index path (passed down directly); every Markdown file other than
`index.md` a `LEAVE` descriptor whose `parent_filename` is its
containing directory's node filename.  `build_local_hierarchy` is proved
to refine this for well-formed filesystem names. -/

mutual
/-- Descriptors for one directory at `dirpath`: its node page (a `ROOT`
when `isRoot`, otherwise a `NODE` pointing at `parentIndex`), then its
Markdown leaves, then the descriptors of its subtrees, skipping the
first `".git"` subdirectory. -/
def specTree (dirpath : String) (isRoot : Bool) (parentIndex : String) :
    DirTree → List Page
  | .mk _ files subs =>
      let node := pathJoin dirpath "index.md"
      (if isRoot then Page.mk .ROOT "" node else Page.mk .NODE parentIndex node)
      :: ((files.filter (fun f => f ≠ "index.md" && strEndsWith f ".md")).map
            (fun f => Page.mk .LEAVE node (pathJoin dirpath f))
          ++ specForest dirpath node true subs)

/-- Descriptors of a list of sibling subtrees of the directory at `p`
whose node filename is `parentIndex`. -/
def specForest (p : String) (parentIndex : String) : Bool → Forest → List Page
  | _, .nil => []
  | canSkip, .cons d ds =>
      if canSkip && d.name = ".git" then specForest p parentIndex false ds
      else specTree (pathJoin p d.name) false parentIndex d
             ++ specForest p parentIndex canSkip ds
end

/-- The spec-side hierarchy of the whole run. -/
def specHierarchy (path : String) (t : DirTree) : List Page :=
  specTree path true "" t

/-! ## Directory / Markdown-file counts (for C8) -/

mutual
/-- Number of directories the walk visits below (and including) this
directory, with the `".git"` pruning applied. -/
def numDirs : DirTree → Nat
  | .mk _ _ subs => 1 + numDirsF true subs

def numDirsF : Bool → Forest → Nat
  | _, .nil => 0
  | canSkip, .cons d ds =>
      if canSkip && d.name = ".git" then numDirsF false ds
      else numDirs d + numDirsF canSkip ds
end

mutual
/-- Number of visited files whose name ends in `.md` and is not
`index.md`, with the `".git"` pruning applied. -/
def numMdFiles : DirTree → Nat
  | .mk _ files subs =>
      (files.filter (fun f => f ≠ "index.md" && strEndsWith f ".md")).length
        + numMdFilesF true subs

def numMdFilesF : Bool → Forest → Nat
  | _, .nil => 0
  | canSkip, .cons d ds =>
      if canSkip && d.name = ".git" then numMdFilesF false ds
      else numMdFiles d + numMdFilesF canSkip ds
end

/-! ## Remote page handles and the creation phase

Remote `PageBlock`s are opaque; they are modelled by handles: `ext` is
the page resolved from `root_parent_url` by `get_notion_page`, and
`page n` is the page returned by the n-th `create_notion_page` call of
the run.  Each creation is recorded as an event `(parent, title,
result)`; the `filename_to_notion` dict is an association list with the
newest binding first (so lookup sees the latest assignment, like a
Python dict). -/

inductive Handle where
  | ext
  | page (n : Nat)
deriving DecidableEq, Repr

/-- One `create_notion_page(page, parent)` call: the parent it was
given, the title passed, and the returned handle. -/
structure CreateEvent where
  parent : Handle
  title : String
  result : Handle
deriving DecidableEq, Repr

/-- State of the `create_notion_hierarchy` loop. -/
structure CState where
  mapping : List (String × Handle)
  root_notion_page : Option Handle
  next : Nat
  events : List CreateEvent
deriving DecidableEq, Repr

/-- One iteration of the `create_notion_hierarchy` loop: pick the
parent (`get_notion_page(root_parent_url)` for the `ROOT` page, the
already-created root when `flat`, otherwise
`filename_to_notion[page.parent_filename]`), create the page, record
the handle under `page.filename`, and remember the root's handle.  A
`None` parent (flat mode before the root exists) or a missing dict key
is the Python crash, modelled as `Except.error`. -/
def createStep (flat : Bool) (st : CState) (pg : Page) : Except Unit CState :=
  let parentOpt : Option Handle :=
    if pg.type = .ROOT then some .ext
    else if flat then st.root_notion_page
    else st.mapping.lookup pg.parent_filename
  match parentOpt with
  | none => .error ()
  | some parent =>
      let h := Handle.page st.next
      .ok { mapping := (pg.filename, h) :: st.mapping
            root_notion_page := if pg.type = .ROOT then some h else st.root_notion_page
            next := st.next + 1
            events := st.events ++ [⟨parent, pg.title, h⟩] }

/-- Function `create_notion_hierarchy(root_parent_url, hierarchy, flat)`. -/
def create_notion_hierarchy (flat : Bool) (hierarchy : List Page) :
    Except Unit CState :=
  hierarchy.foldlM (createStep flat) ⟨[], none, 0, []⟩

/-! ## The move phase -/

/-- One `notion_page.move_to(parent_notion_page, "first-child")` call
(child page, new parent, position). -/
structure MoveEvent where
  child : Handle
  parent : Handle
  pos : String
deriving DecidableEq, Repr

/-- The `for page in reversed(hierarchy)` loop body of
`move_pages_notion_hierarchy`, on the already-reversed list: the root is
skipped; otherwise `filename_to_notion[page.parent_filename]` and
`filename_to_notion[page.filename]` are looked up (a missing key raises
`KeyError`, modelled as `Except.error`) and one move call is issued. -/
def movePagesLoop (m : List (String × Handle)) : List Page → Except Unit (List MoveEvent)
  | [] => .ok []
  | pg :: rest =>
      if pg.type = .ROOT then movePagesLoop m rest
      else
        match m.lookup pg.parent_filename, m.lookup pg.filename with
        | some parent, some child => do
            let evs ← movePagesLoop m rest
            .ok (⟨child, parent, "first-child"⟩ :: evs)
        | _, _ => .error ()

/-- Function `move_pages_notion_hierarchy(hierarchy, filename_to_notion)`:
iterate the hierarchy in reverse and move every non-root page to be the
first child of its parent's remote page. -/
def move_pages_notion_hierarchy (hierarchy : List Page)
    (m : List (String × Handle)) : Except Unit (List MoveEvent) :=
  movePagesLoop m hierarchy.reverse

/-! ## URL parsing model (`urllib.parse`)

Only `urlparse(...).path` and `unquote` are used by the source.  The
model covers the fragments of the stdlib behaviour these inputs
exercise: scheme/netloc/query/fragment/params splitting for `.path`,
and `%XX` decoding of ASCII escapes for `unquote`. -/

/-- Hex digit value of a character, if any. -/
def hexDigit? (c : Char) : Option Nat :=
  if '0' ≤ c ∧ c ≤ '9' then some (c.toNat - '0'.toNat)
  else if 'a' ≤ c ∧ c ≤ 'f' then some (c.toNat - 'a'.toNat + 10)
  else if 'A' ≤ c ∧ c ≤ 'F' then some (c.toNat - 'A'.toNat + 10)
  else none

/-- Model of `urllib.parse.unquote` for ASCII `%XX` escapes; malformed escapes
are left untouched, as in Python. -/
def unquoteCs : List Char → List Char
  | '%' :: a :: b :: rest =>
      match hexDigit? a, hexDigit? b with
      | some x, some y => Char.ofNat (16 * x + y) :: unquoteCs rest
      | _, _ => '%' :: unquoteCs (a :: b :: rest)
  | c :: rest => c :: unquoteCs rest
  | [] => []

/-- Model of `urllib.parse.unquote` on strings. -/
def unquote (s : String) : String := ⟨unquoteCs s.data⟩

/-- A valid scheme character after the first (`RFC 3986`). -/
def isSchemeChar (c : Char) : Bool :=
  c.isAlphanum || c = '+' || c = '-' || c = '.'

/-- Strip a leading `scheme:` if the text before the first `:` is a
valid scheme (first character alphabetic, rest scheme characters). -/
def stripScheme (s : List Char) : List Char :=
  let pre := s.takeWhile (fun c => c ≠ ':')
  match pre with
  | [] => s
  | c0 :: restPre =>
      if pre.length < s.length ∧ c0.isAlpha ∧ restPre.all isSchemeChar then
        s.drop (pre.length + 1)
      else s

/-- Split `;params` off the last path segment, as `urlparse` does. -/
def splitParams (p : List Char) : List Char :=
  if p.contains '/' then
    let tailRev := p.reverse.takeWhile (fun c => c ≠ '/')
    if tailRev.contains ';' then
      p.take (p.length - tailRev.length) ++ (tailRev.reverse.takeWhile (fun c => c ≠ ';'))
    else p
  else p.takeWhile (fun c => c ≠ ';')

/-- Model of `urllib.parse.urlparse(url).path`: drop the fragment (after the
first `#`), the query (after the first `?`), a leading `scheme:`, a
`//netloc` up to the next `/`, and trailing `;params`. -/
def urlPath (url : String) : String :=
  let s := url.data.takeWhile (fun c => c ≠ '#')
  let s := s.takeWhile (fun c => c ≠ '?')
  let s := stripScheme s
  let path :=
    if s.head? = some '/' ∧ (s.drop 1).head? = some '/' then
      (s.drop 2).dropWhile (fun c => c ≠ '/')
    else s
  ⟨splitParams path⟩

/-! ## Link resolution -/

/-- Function `_resolve_github_wiki_link(original_ref, github_wiki_root, dir)`:
ensure the wiki root ends with `/`; if the reference starts with it,
URL-decode the reference's path, delete every occurrence of the wiki
root's URL-decoded path from it, append `.md` and join the result onto
`dir`; otherwise `None`. -/
def resolve_github_wiki_link (original_ref github_wiki_root dir : String) :
    Option String :=
  let root := if strEndsWith github_wiki_root "/" then github_wiki_root
              else github_wiki_root ++ "/"
  if strStartsWith original_ref root then
    let ref := unquote (urlPath original_ref)
    let wikiPath := unquote (urlPath root)
    let ref := strReplace ref wikiPath ""
    let ref := ref ++ ".md"
    some (pathJoin dir ref)
  else none

/-- The `for github_wiki_root in github_wiki_roots` loop of
`_resolve_link`: first wiki root that resolves wins. -/
def firstWikiHit (ref : String) (dir : String) : List String → Option String
  | [] => none
  | root :: roots =>
      match resolve_github_wiki_link ref root dir with
      | some r => some r
      | none => firstWikiHit ref dir roots

/-- Function `_resolve_link(matchobj, page, filename_to_notion, dir,
github_wiki_roots)`.  `matched` is `matchobj.group(0)` (the text
including the parentheses); `url` models `PageBlock.get_browseable_url`.
The inner reference is the match minus its enclosing parentheses; a
reference starting with `./` resolves against the document's directory,
anything else is tried against the wiki roots (returning the original
text in parentheses when none matches); the resolved key is looked up in
the mapping, a missing key (`KeyError`) falls back to the original
reference text. -/
def resolve_link (matched : String) (page : Page)
    (m : List (String × Handle)) (url : Handle → String)
    (dir : String) (github_wiki_roots : List String) : String :=
  let original_ref : String := ⟨(matched.data.drop 1).dropLast⟩
  let resolvedOpt : Option String :=
    if strStartsWith original_ref "./" then
      some (normpath (pathJoin (dirname page.filename) original_ref))
    else firstWikiHit original_ref dir github_wiki_roots
  match resolvedOpt with
  | none => "(" ++ original_ref ++ ")"
  | some resolved_ref =>
      let notion_url :=
        match m.lookup resolved_ref with
        | some h => url h
        | none => original_ref
      "(" ++ notion_url ++ ")"

/-! ## The `re.sub(r"\(.+\)", resolver, content)` model

In the pattern, `.` does not match a newline and `.+` is greedy, so a
match runs from a `(` to the last `)` on the same line with at least
one character in between, and the leftmost match of a line starts at
its first `(` that has such a `)`.  Consequently each line admits at
most one match (nothing to the right of the last `)` can match), and
the substitution acts line by line. -/

/-- Index of the last occurrence of `c`, if any. -/
def lastIdxOf (c : Char) (l : List Char) : Option Nat :=
  match l.reverse.findIdx? (fun x => x = c) with
  | some k => some (l.length - 1 - k)
  | none => none

/-- Apply the single greedy `\(.+\)` match of one line, if there is
one: with `j` the index of the line's last `)`, the match starts at the
first `(` at index `i ≤ j - 2` and spans up to `j`; the matched text
(parentheses included) is replaced by `f` applied to it. -/
def lineSub (f : String → String) (line : List Char) : List Char :=
  match lastIdxOf ')' line with
  | none => line
  | some j =>
      match (line.take (j - 1)).findIdx? (fun x => x = '(') with
      | none => line
      | some i =>
          line.take i ++ (f ⟨(line.drop i).take (j - i + 1)⟩).data ++ line.drop (j + 1)

/-- Model of `re.sub(r"\(.+\)", f, content)`. -/
def reSubParen (f : String → String) (content : String) : String :=
  ⟨(((splitOnChar '\n' content.data).map (lineSub f)).intersperse ['\n']).flatten⟩

/-- The content rewriting done for one page inside
`update_link_notion_hierarchy`:
`re.sub(r"\(.+\)", resolver, content)` with the resolver bound to the
page, the mapping, the source directory and the wiki roots. -/
def update_link_content (content : String) (page : Page)
    (m : List (String × Handle)) (url : Handle → String)
    (dir : String) (github_wiki_roots : List String) : String :=
  reSubParen (fun s => resolve_link s page m url dir github_wiki_roots) content

/-- Modelled from the spec: the claim C7 reading of the rewriting pass,
in which every parenthesized reference is individually extracted and
resolved — each `(` matches up to the nearest `)` on the same line with
at least one character in between, and scanning resumes after it.  This
is the per-reference substitution the claim describes, to be compared
with `reSubParen` (what the code's greedy regex does).  The fuel
argument (initially the length of the text) only makes the recursion
structural. -/
def eachRefSubFuel (f : String → String) : Nat → List Char → List Char
  | _, [] => []
  | 0, s => s
  | fuel + 1, c :: cs =>
      if c = '(' then
        let line := cs.takeWhile (fun x => x ≠ '\n')
        match line.findIdx? (fun x => x = ')') with
        | some j =>
            if 1 ≤ j then
              (f ⟨'(' :: line.take (j + 1)⟩).data
                ++ eachRefSubFuel f fuel (cs.drop (j + 1))
            else c :: eachRefSubFuel f fuel cs
        | none => c :: eachRefSubFuel f fuel cs
      else c :: eachRefSubFuel f fuel cs

/-- Modelled from the spec: per-reference link rewriting (see
`eachRefSubFuel`). -/
def update_link_content_each_ref (content : String) (page : Page)
    (m : List (String × Handle)) (url : Handle → String)
    (dir : String) (github_wiki_roots : List String) : String :=
  ⟨eachRefSubFuel (fun s => resolve_link s page m url dir github_wiki_roots)
    content.data.length content.data⟩

/-! ## Content upload for one page (`export_notion_page`)

`update_link_notion_hierarchy` writes the rewritten content to a scratch
file (this write is *not* inside any `try`) and then calls
`export_notion_page`, which wraps only `client.import_file` in
`try/except IOError`, retrying once with a fresh empty scratch file, and
finally re-sets the page title.  The remote calls are modelled by their
outcomes: `firstRaises`/`retryRaises` say whether the respective
`import_file` call raises `IOError`, `writeRaises` whether the scratch
write does.  The result is the list of emitted calls plus a flag saying
whether the step ended in an uncaught exception. -/

inductive ImportPayload where
  | content
  | empty
deriving DecidableEq, Repr

inductive ExportEvent where
  | importAttempt (payload : ImportPayload)
  | setTitle (title : String)
deriving DecidableEq, Repr

/-- One `client.import_file` call and whether it raises. -/
def attemptImport (payload : ImportPayload) (raises : Bool) :
    List ExportEvent × Bool :=
  ([ExportEvent.importAttempt payload], raises)

/-- Model of `try: a except IOError: handler` for event-emitting actions. -/
def tryExceptIOError (a handler : List ExportEvent × Bool) :
    List ExportEvent × Bool :=
  if a.2 then (a.1 ++ handler.1, handler.2) else a

/-- Sequencing: run `b` after `a` unless `a` raised. -/
def andThenEff (a b : List ExportEvent × Bool) : List ExportEvent × Bool :=
  if a.2 then a else (a.1 ++ b.1, b.2)

/-- Function `export_notion_page(notion_page, page, filename)`: import the
scratch file; on `IOError` import a fresh empty scratch file instead;
then re-set the page title to `page.title`. -/
def export_notion_page (firstRaises retryRaises : Bool) (title : String) :
    List ExportEvent × Bool :=
  andThenEff
    (tryExceptIOError (attemptImport .content firstRaises)
      (attemptImport .empty retryRaises))
    ([ExportEvent.setTitle title], false)

/-- The content-upload step of `update_link_notion_hierarchy` for one
page: write the scratch file (an `IOError` here is not caught by
anything), then `export_notion_page`. -/
def uploadPageStep (writeRaises firstRaises retryRaises : Bool)
    (title : String) : List ExportEvent × Bool :=
  if writeRaises then ([], true)
  else export_notion_page firstRaises retryRaises title

/-! ## Referential integrity of a hierarchy -/

/-- Predicate `checkParents seen pages` holds when, scanning `pages` in order,
every non-empty `parent_filename` equals the `filename` of some earlier
descriptor (`seen` collects the filenames already passed). -/
def checkParents (seen : List String) : List Page → Bool
  | [] => true
  | p :: rest =>
      (p.parent_filename = "" || seen.contains p.parent_filename)
        && checkParents (p.filename :: seen) rest

/-! ## Well-formedness of the inputs

`build_local_hierarchy`'s path arithmetic (`dirname` of a `join`)
identifies a directory's parent correctly for any real filesystem:
directory names are non-empty and contain no separator, and the walk's
root path does not end in a doubled separator (`os.walk` never produces
such dirpaths itself; only the caller-supplied root could). -/

/-- The path does not end in `//`. -/
def goodPathCs (p : List Char) : Bool := !(p.reverse.take 2 == ['/', '/'])

/-- The path does not end in `//`. -/
def goodPath (p : String) : Bool := goodPathCs p.data

/-- A well-formed directory-entry name: non-empty, no separator. -/
def nameOk (n : String) : Bool := !n.data.isEmpty && n.data.all neSlash

mutual
/-- All subdirectory names below this directory are well-formed. -/
def namesOkT : DirTree → Bool
  | .mk _ _ subs => namesOkF subs

def namesOkF : Forest → Bool
  | .nil => true
  | .cons d ds => nameOk d.name && namesOkT d && namesOkF ds
end

/-- The move call the loop issues for one descriptor, if any: none for
the root, the move of the page's handle under its parent's handle
otherwise (none as well if a lookup misses, in which case the loop
errors instead). -/
def moveEventOf (m : List (String × Handle)) (pg : Page) : Option MoveEvent :=
  if pg.type = .ROOT then none
  else
    match m.lookup pg.parent_filename, m.lookup pg.filename with
    | some parent, some child => some ⟨child, parent, "first-child"⟩
    | _, _ => none

/-! ## The creation phase, characterized

Expected values of a creation run: the k-th `create_notion_page` call
of the run returns handle `page k`, and the k-th processed descriptor's
`filename` is bound to that handle. -/

/-- The mapping entries recorded for `pages` when the next handle to be
returned is `page start`, in insertion order. -/
def createdHandles (start : Nat) : List Page → List (String × Handle)
  | [] => []
  | pg :: rest => (pg.filename, Handle.page start) :: createdHandles (start + 1) rest

/-- The creation events of a flat run over non-root pages: each page is
created directly under the root's handle `rootH`. -/
def flatChildEvents (rootH : Handle) (start : Nat) : List Page → List CreateEvent
  | [] => []
  | pg :: rest =>
      ⟨rootH, pg.title, .page start⟩ :: flatChildEvents rootH (start + 1) rest

/-- The creation events of a nested (non-flat) run over non-root pages,
characterized through a mapping `m`: each page is created under the
handle `m` assigns to its `parent_filename` (`none` if some parent is
unmapped). -/
def nestedEventsVia (m : List (String × Handle)) (start : Nat) :
    List Page → Option (List CreateEvent)
  | [] => some []
  | pg :: rest =>
      match m.lookup pg.parent_filename with
      | some h =>
          (nestedEventsVia m (start + 1) rest).map
            (⟨h, pg.title, .page start⟩ :: ·)
      | none => none

/-- Every page's `parent_filename` (empty or not) names the `filename`
of an earlier page (`seen` collects the filenames already passed) —
the precondition for the non-flat creation lookups to succeed. -/
def parentsBound (seen : List String) : List Page → Bool
  | [] => true
  | pg :: rest =>
      seen.contains pg.parent_filename && parentsBound (pg.filename :: seen) rest

/-- The filenames of `l` accumulated (newest first) onto `seen`. -/
def namesAcc (l : List Page) (seen : List String) : List String :=
  l.foldl (fun s pg => pg.filename :: s) seen

/-- Example tree `root > a > a/b.md` of the claim. -/
def exMoveTree : DirTree := .mk "root" [] (.cons (.mk "a" ["b.md"] .nil) .nil)

/-- Mapping produced for `exMoveTree` by a creation run. -/
def exMoveMap : List (String × Handle) :=
  [("root/index.md", .page 0), ("root/a/index.md", .page 1),
   ("root/a/b.md", .page 2)]

/-- The document `a/index.md` of claim C5. -/
def pageAIndex : Page := ⟨.NODE, "index.md", "a/index.md"⟩

/-- A sample tree for the C1 witness: a root with files, a pruned
`.git` subtree and two nested directories. -/
def exC1Tree : DirTree :=
  .mk "proj" ["readme.md", "index.md", "notes.txt"]
    (.cons (.mk ".git" ["config.md"] .nil)
      (.cons (.mk "docs" ["guide.md"]
        (.cons (.mk "deep" ["x.md"] .nil) .nil)) .nil))


theorem movePagesLoop_ok (m : List (String × Handle)) (l : List Page)
    (h : ∀ pg ∈ l, pg.type ≠ .ROOT →
      (m.lookup pg.parent_filename).isSome ∧ (m.lookup pg.filename).isSome) :
    movePagesLoop m l = .ok (l.filterMap (moveEventOf m)) := by
  induction l with
  | nil => rfl
  | cons pg rest ih =>
    have hrest := fun q hq => h q (List.mem_cons_of_mem _ hq)
    by_cases hr : pg.type = .ROOT
    · simp [movePagesLoop, moveEventOf, hr, ih hrest]
    · obtain ⟨h1, h2⟩ := h pg (List.mem_cons_self _ _) hr
      obtain ⟨parent, hp⟩ := Option.isSome_iff_exists.mp h1
      obtain ⟨child, hc⟩ := Option.isSome_iff_exists.mp h2
      simp [movePagesLoop, moveEventOf, hr, hp, hc, ih hrest, bind, Except.bind]

theorem movePagesLoop_error_iff (m : List (String × Handle)) (l : List Page) :
    movePagesLoop m l = .error () ↔
      ∃ pg ∈ l, pg.type ≠ .ROOT ∧
        (m.lookup pg.parent_filename = none ∨ m.lookup pg.filename = none) := by
  induction l with
  | nil => simp [movePagesLoop]
  | cons pg rest ih =>
    by_cases hr : pg.type = .ROOT
    · simp only [movePagesLoop, hr, if_true, ih]
      constructor
      · rintro ⟨q, hq, hprop⟩
        exact ⟨q, List.mem_cons_of_mem _ hq, hprop⟩
      · rintro ⟨q, hq, hq1, hq2⟩
        rcases List.mem_cons.mp hq with hq | hq
        · exact absurd (hq ▸ hr) hq1
        · exact ⟨q, hq, hq1, hq2⟩
    · cases hp : m.lookup pg.parent_filename with
      | none =>
          simp only [movePagesLoop, hr, if_false, hp]
          exact iff_of_true (by trivial)
            ⟨pg, List.mem_cons_self _ _, hr, Or.inl hp⟩
      | some parent =>
          cases hc : m.lookup pg.filename with
          | none =>
              simp only [movePagesLoop, hr, if_false, hp, hc]
              exact iff_of_true (by trivial)
                ⟨pg, List.mem_cons_self _ _, hr, Or.inr hc⟩
          | some child =>
              simp only [movePagesLoop, hr, if_false, hp, hc]
              cases hrest : movePagesLoop m rest with
              | ok evs =>
                  simp only [hrest, bind, Except.bind]
                  constructor
                  · intro hcontra
                    exact absurd hcontra (by simp)
                  · rintro ⟨q, hq, hq1, hq2⟩
                    rcases List.mem_cons.mp hq with hq | hq
                    · subst hq
                      rcases hq2 with h2 | h2
                      · exact absurd (hp.symm.trans h2) (by simp)
                      · exact absurd (hc.symm.trans h2) (by simp)
                    · exact absurd (ih.mpr ⟨q, hq, hq1, hq2⟩)
                        (by simp [hrest])
              | error e =>
                  cases e
                  simp only [hrest, bind, Except.bind]
                  refine iff_of_true (by trivial) ?_
                  obtain ⟨q, hq, hprop⟩ := ih.mp hrest
                  exact ⟨q, List.mem_cons_of_mem _ hq, hprop⟩

/-- The first wiki root that resolves a reference yields its key. -/
theorem firstWikiHit_eq_none (ref dir : String) (roots : List String)
    (h : ∀ root ∈ roots, resolve_github_wiki_link ref root dir = none) :
    firstWikiHit ref dir roots = none := by
  induction roots with
  | nil => rfl
  | cons root roots ih =>
    have h0 := h root (List.mem_cons_self _ _)
    simp only [firstWikiHit, h0]
    exact ih (fun r hr => h r (List.mem_cons_of_mem _ hr))

/-- Dropping the enclosing parentheses of `"(" ++ ref ++ ")"` gives
back `ref`. -/
theorem wrapped_inner (ref : String) :
    ((("(" ++ ref ++ ")").data.drop 1).dropLast : List Char) = ref.data := by
  simp [String.data_append]

/-! ## Lemmas about the walk and the generated hierarchy -/

theorem hierarchyOfEntries_append (a : List (String × List String)) :
    ∀ (i : Nat) (b : List (String × List String)),
      hierarchyOfEntries i (a ++ b) =
        hierarchyOfEntries i a ++ hierarchyOfEntries (i + a.length) b := by
  induction a with
  | nil => intro i b; simp [hierarchyOfEntries]
  | cons e rest ih =>
    intro i b
    obtain ⟨dirpath, filenames⟩ := e
    simp only [List.cons_append, hierarchyOfEntries, List.length_cons,
      List.append_assoc, List.append_eq]
    rw [ih (i + 1), show i + 1 + rest.length = i + (rest.length + 1) by omega]

/-- Leaf pages generated for the files of one directory all have kind
`LEAVE`. -/
theorem countP_leafMap_leave (node dirpath : String) (fs : List String) :
    ((fs.map (fun f => Page.mk .LEAVE node (pathJoin dirpath f))).countP
      (fun pg => pg.type == PageType.LEAVE)) = fs.length := by
  induction fs with
  | nil => rfl
  | cons f rest ih => simp [ih]

theorem countP_leafMap_node (node dirpath : String) (fs : List String) :
    ((fs.map (fun f => Page.mk .LEAVE node (pathJoin dirpath f))).countP
      (fun pg => pg.type == PageType.NODE || pg.type == PageType.ROOT)) = 0 := by
  induction fs with
  | nil => rfl
  | cons f rest ih => simp [ih]

mutual
/-- Below the root every walk entry contributes exactly its filtered
Markdown files as leaves. -/
theorem countLeave_tree (t : DirTree) :
    ∀ (p : String) (i : Nat),
      ((hierarchyOfEntries (i + 1) (osWalk p t)).countP
        (fun pg => pg.type == PageType.LEAVE)) = numMdFiles t := by
  cases t with
  | mk name files subs =>
    intro p i
    simp only [osWalk, hierarchyOfEntries, numMdFiles]
    simp only [List.countP_cons, List.countP_append, countP_leafMap_leave]
    have hf := countLeave_forest subs
    simp [hf p true (i + 1), List.length_filter_le]

theorem countLeave_forest (fo : Forest) :
    ∀ (p : String) (b : Bool) (i : Nat),
      ((hierarchyOfEntries (i + 1) (walkForest p b fo)).countP
        (fun pg => pg.type == PageType.LEAVE)) = numMdFilesF b fo := by
  cases fo with
  | nil => intro p b i; rfl
  | cons d ds =>
    intro p b i
    by_cases hskip : (b && decide (d.name = ".git")) = true
    · simp only [walkForest, numMdFilesF, hskip, if_true]
      exact countLeave_forest ds p false i
    · simp only [walkForest, numMdFilesF, if_neg hskip]
      rw [hierarchyOfEntries_append]
      simp only [List.countP_append]
      rw [countLeave_tree d, show i + 1 + (osWalk (pathJoin p d.name) d).length =
        (i + (osWalk (pathJoin p d.name) d).length) + 1 by omega]
      rw [countLeave_forest ds]
end

mutual
theorem countNode_tree (t : DirTree) :
    ∀ (p : String) (i : Nat),
      ((hierarchyOfEntries (i + 1) (osWalk p t)).countP
        (fun pg => pg.type == PageType.NODE || pg.type == PageType.ROOT)) = numDirs t := by
  cases t with
  | mk name files subs =>
    intro p i
    simp only [osWalk, hierarchyOfEntries, numDirs]
    simp only [List.countP_cons, List.countP_append, countP_leafMap_node]
    have hf := countNode_forest subs
    simp [hf p true (i + 1)]
    omega

theorem countNode_forest (fo : Forest) :
    ∀ (p : String) (b : Bool) (i : Nat),
      ((hierarchyOfEntries (i + 1) (walkForest p b fo)).countP
        (fun pg => pg.type == PageType.NODE || pg.type == PageType.ROOT)) = numDirsF b fo := by
  cases fo with
  | nil => intro p b i; rfl
  | cons d ds =>
    intro p b i
    by_cases hskip : (b && decide (d.name = ".git")) = true
    · simp only [walkForest, numDirsF, hskip, if_true]
      exact countNode_forest ds p false i
    · simp only [walkForest, numDirsF, if_neg hskip]
      rw [hierarchyOfEntries_append]
      simp only [List.countP_append]
      rw [countNode_tree d, show i + 1 + (osWalk (pathJoin p d.name) d).length =
        (i + (osWalk (pathJoin p d.name) d).length) + 1 by omega]
      rw [countNode_forest ds]
end

theorem keys_createdHandles (l : List Page) :
    ∀ start, (createdHandles start l).map Prod.fst = l.map Page.filename := by
  induction l with
  | nil => intro start; rfl
  | cons pg rest ih => intro start; simp [createdHandles, ih]

theorem lookup_isSome_of_contains (m : List (String × Handle)) (k : String)
    (h : (m.map Prod.fst).contains k = true) : (m.lookup k).isSome := by
  induction m with
  | nil => simp at h
  | cons e rest ih =>
    obtain ⟨key, v⟩ := e
    by_cases hk : k = key
    · simp [List.lookup, hk]
    · simp only [List.map_cons, List.contains_cons] at h
      rcases Bool.or_eq_true_iff.mp h with h | h
      · exact absurd (by simpa using h) hk
      · have hbeq : (k == key) = false := beq_eq_false_iff_ne.mpr hk
        simp only [List.lookup, hbeq]
        exact ih h

theorem lookup_eq_none_of_not_mem (m : List (String × Handle)) (k : String)
    (h : k ∉ m.map Prod.fst) : m.lookup k = none := by
  induction m with
  | nil => rfl
  | cons e rest ih =>
    obtain ⟨key, v⟩ := e
    simp only [List.map_cons, List.mem_cons] at h
    push_neg at h
    have hbeq : (k == key) = false := beq_eq_false_iff_ne.mpr h.1
    simp only [List.lookup, hbeq]
    exact ih h.2

theorem lookup_append_of_none (a b : List (String × Handle)) (k : String)
    (h : a.lookup k = none) : (a ++ b).lookup k = b.lookup k := by
  induction a with
  | nil => rfl
  | cons e rest ih =>
    obtain ⟨key, v⟩ := e
    simp only [List.lookup] at h ⊢
    by_cases hk : (k == key) = true
    · rw [hk] at h; simp at h
    · rw [Bool.not_eq_true] at hk
      rw [hk] at h ⊢
      exact ih h

/-- Invariant run of the flat creation loop over non-root pages: every
page is created under the already-known root handle, handles are
numbered consecutively, and each filename is bound to its handle. -/
theorem create_flat_run (rest : List Page) : ∀ (st : CState) (rootH : Handle),
    st.root_notion_page = some rootH →
    (∀ pg ∈ rest, pg.type ≠ .ROOT) →
    List.foldlM (createStep true) st rest = Except.ok
      { mapping := (createdHandles st.next rest).reverse ++ st.mapping
        root_notion_page := some rootH
        next := st.next + rest.length
        events := st.events ++ flatChildEvents rootH st.next rest } := by
  induction rest with
  | nil =>
    intro st rootH hroot htypes
    simp only [List.foldlM_nil, createdHandles, flatChildEvents,
      List.reverse_nil, List.nil_append, List.append_nil, List.length_nil,
      Nat.add_zero]
    rw [← hroot]
    rfl
  | cons pg rest ih =>
    intro st rootH hroot htypes
    have hpg := htypes pg (List.mem_cons_self _ _)
    have hstep : createStep true st pg = Except.ok
        { mapping := (pg.filename, Handle.page st.next) :: st.mapping
          root_notion_page := st.root_notion_page
          next := st.next + 1
          events := st.events ++ [⟨rootH, pg.title, .page st.next⟩] } := by
      simp [createStep, hroot, if_neg hpg]
    have hroot1 : (⟨(pg.filename, Handle.page st.next) :: st.mapping,
        st.root_notion_page, st.next + 1,
        st.events ++ [CreateEvent.mk rootH pg.title (Handle.page st.next)]⟩ :
        CState).root_notion_page = some rootH := hroot
    rw [List.foldlM_cons, hstep]
    show List.foldlM (createStep true)
      (⟨(pg.filename, Handle.page st.next) :: st.mapping, st.root_notion_page,
        st.next + 1,
        st.events ++ [CreateEvent.mk rootH pg.title (Handle.page st.next)]⟩ :
        CState) rest = _
    rw [ih _ rootH hroot1 (fun q hq => htypes q (List.mem_cons_of_mem _ hq))]
    simp only [Except.ok.injEq, CState.mk.injEq]
    refine ⟨?_, ?_, ?_, ?_⟩
    · simp [createdHandles, List.append_assoc]
    · trivial
    · simp [List.length_cons]
      omega
    · simp [flatChildEvents, List.append_assoc]

/-- Invariant run of the non-flat creation loop over non-root pages:
every page is created under the handle its `parent_filename` is bound
to at that point of the run — equivalently (all filenames being
distinct) the handle the final mapping assigns to it. -/
theorem create_nested_run (rest : List Page) : ∀ (st : CState),
    (∀ pg ∈ rest, pg.type ≠ .ROOT) →
    parentsBound (st.mapping.map Prod.fst) rest = true →
    ((st.mapping.map Prod.fst) ++ rest.map Page.filename).Nodup →
    ∃ evs, List.foldlM (createStep false) st rest = Except.ok
      { mapping := (createdHandles st.next rest).reverse ++ st.mapping
        root_notion_page := st.root_notion_page
        next := st.next + rest.length
        events := st.events ++ evs } ∧
      nestedEventsVia ((createdHandles st.next rest).reverse ++ st.mapping)
        st.next rest = some evs := by
  induction rest with
  | nil =>
    intro st htypes hbound hnodup
    refine ⟨[], ?_, rfl⟩
    simp only [List.foldlM_nil, createdHandles, List.reverse_nil,
      List.nil_append, List.length_nil, Nat.add_zero, List.append_nil]
    rfl
  | cons pg rest ih =>
    intro st htypes hbound hnodup
    have hpg := htypes pg (List.mem_cons_self _ _)
    simp only [parentsBound, Bool.and_eq_true] at hbound
    obtain ⟨parent, hparent⟩ := Option.isSome_iff_exists.mp
      (lookup_isSome_of_contains _ _ hbound.1)
    have hstep : createStep false st pg = Except.ok
        { mapping := (pg.filename, Handle.page st.next) :: st.mapping
          root_notion_page := st.root_notion_page
          next := st.next + 1
          events := st.events ++ [⟨parent, pg.title, .page st.next⟩] } := by
      simp [createStep, hparent, if_neg hpg]
    have hperm : ((pg.filename :: st.mapping.map Prod.fst) ++ rest.map Page.filename).Perm
        ((st.mapping.map Prod.fst) ++ (pg :: rest).map Page.filename) := by
      simp only [List.map_cons, List.cons_append]
      exact List.perm_middle.symm
    obtain ⟨evs, hrun, hvia⟩ := ih
      { mapping := (pg.filename, Handle.page st.next) :: st.mapping
        root_notion_page := st.root_notion_page
        next := st.next + 1
        events := st.events ++ [⟨parent, pg.title, .page st.next⟩] }
      (fun q hq => htypes q (List.mem_cons_of_mem _ hq))
      (by simpa using hbound.2)
      (hperm.nodup_iff.mpr hnodup)
    refine ⟨⟨parent, pg.title, .page st.next⟩ :: evs, ?_, ?_⟩
    · rw [List.foldlM_cons, hstep]
      show List.foldlM (createStep false) _ rest = _
      rw [hrun]
      simp only [Except.ok.injEq, CState.mk.injEq]
      refine ⟨?_, ?_, ?_, ?_⟩
      · simp [createdHandles, List.append_assoc]
      · trivial
      · simp [List.length_cons]
        omega
      · simp [List.append_assoc]
    · have hM : ((createdHandles st.next (pg :: rest)).reverse ++ st.mapping).lookup
          pg.parent_filename = some parent := by
        rw [lookup_append_of_none]
        · exact hparent
        · apply lookup_eq_none_of_not_mem
          rw [List.map_reverse, keys_createdHandles, List.mem_reverse]
          have hdisj := (List.nodup_append.mp hnodup).2.2
          intro hmem
          exact hdisj (List.mem_of_elem_eq_true hbound.1) hmem
      simp only [nestedEventsVia, hM]
      have hMeq : (createdHandles st.next (pg :: rest)).reverse ++ st.mapping =
          (createdHandles (st.next + 1) rest).reverse ++
            ((pg.filename, Handle.page st.next) :: st.mapping) := by
        simp [createdHandles, List.reverse_cons, List.append_assoc]
      rw [hMeq, hvia]
      rfl

/-! ## Lemmas about the regex substitution model -/

theorem findIdx?_append_left_none {α : Type} (p : α → Bool) (a b : List α)
    (h : ∀ c ∈ a, p c = false) :
    List.findIdx? p (a ++ b) = (List.findIdx? p b).map (· + a.length) := by
  rw [List.findIdx?_append, List.findIdx?_eq_none_iff.mpr h, Option.none_or]

theorem lineSub_single (f : String → String) (pre inner post : List Char)
    (hpre : ∀ c ∈ pre, c ≠ '(') (hinner : inner ≠ [])
    (hpost : ∀ c ∈ post, c ≠ ')') :
    lineSub f (pre ++ '(' :: (inner ++ ')' :: post)) =
      pre ++ (f ⟨'(' :: (inner ++ [')'])⟩).data ++ post := by
  have hlen : (pre ++ '(' :: (inner ++ ')' :: post)).length =
      pre.length + inner.length + post.length + 2 := by
    simp
    omega
  have hrev : (pre ++ '(' :: (inner ++ ')' :: post)).reverse =
      post.reverse ++ ')' :: (inner.reverse ++ '(' :: pre.reverse) := by
    simp
  have hlast : lastIdxOf ')' (pre ++ '(' :: (inner ++ ')' :: post)) =
      some (pre.length + inner.length + 1) := by
    unfold lastIdxOf
    rw [hrev, findIdx?_append_left_none _ _ _
      (by
        intro c hc
        have hcp := hpost c (List.mem_reverse.mp hc)
        simp [hcp])]
    rw [show List.findIdx? (fun x => x = ')') (')' :: (inner.reverse ++ '(' :: pre.reverse)) = some 0 by
      simp [List.findIdx?_cons]]
    simp only [Option.map_some', hlen, List.length_reverse]
    congr 1
    omega
  have hj1 : pre.length + inner.length + 1 - 1 = pre.length + inner.length := by omega
  have hfind : ((pre ++ '(' :: (inner ++ ')' :: post)).take
      (pre.length + inner.length)).findIdx? (fun x => x = '(') = some pre.length := by
    rw [List.take_append_eq_append_take, List.take_of_length_le (by omega),
      show pre.length + inner.length - pre.length = inner.length by omega]
    cases inner with
    | nil => exact absurd rfl hinner
    | cons x xs =>
      rw [show ('(' :: (x :: xs ++ ')' :: post)).take (x :: xs).length =
        '(' :: ((x :: xs ++ ')' :: post).take xs.length) by simp [List.take_succ_cons]]
      rw [findIdx?_append_left_none _ _ _ (by intro c hc; simp [hpre c hc])]
      simp [List.findIdx?_cons]
  have htake : (pre ++ '(' :: (inner ++ ')' :: post)).take pre.length = pre :=
    List.take_left pre _
  have harg : ((pre ++ '(' :: (inner ++ ')' :: post)).drop pre.length).take
      (pre.length + inner.length + 1 - pre.length + 1) = '(' :: (inner ++ [')']) := by
    rw [List.drop_left pre, show pre.length + inner.length + 1 - pre.length + 1 = inner.length + 2 by omega]
    rw [show ('(' :: (inner ++ ')' :: post)).take (inner.length + 2) =
      '(' :: ((inner ++ ')' :: post).take (inner.length + 1)) by simp [List.take_succ_cons]]
    rw [List.take_append_eq_append_take, List.take_of_length_le (by omega),
      show inner.length + 1 - inner.length = 1 by omega]
    simp
  have hdrop : (pre ++ '(' :: (inner ++ ')' :: post)).drop
      (pre.length + inner.length + 1 + 1) = post := by
    rw [List.drop_append_eq_append_drop, List.drop_of_length_le (by omega),
      List.nil_append,
      show pre.length + inner.length + 1 + 1 - pre.length = inner.length + 2 by omega]
    rw [show ('(' :: (inner ++ ')' :: post)).drop (inner.length + 2) =
      (inner ++ ')' :: post).drop (inner.length + 1) by simp [List.drop_succ_cons]]
    rw [List.drop_append_eq_append_drop, List.drop_of_length_le (by omega),
      List.nil_append, show inner.length + 1 - inner.length = 1 by omega]
    simp
  unfold lineSub
  rw [hlast]
  simp only [hj1, hfind]
  rw [htake, harg, hdrop]

theorem splitOnChar_eq_single (sep : Char) (l : List Char)
    (h : ∀ c ∈ l, c ≠ sep) : splitOnChar sep l = [l] := by
  induction l with
  | nil => rfl
  | cons c cs ih =>
    have hc := h c (List.mem_cons_self _ _)
    simp only [splitOnChar, ih (fun x hx => h x (List.mem_cons_of_mem _ hx)),
      if_neg hc]

/-- Applying `re.sub(r"\(.+\)", f, _)` to a one-line text holding exactly one
parenthesized span: the span is replaced by `f` of the matched text and
everything around it is untouched. -/
theorem reSubParen_single (f : String → String) (pre inner post : String)
    (hpre : ∀ c ∈ pre.data, c ≠ '(' ∧ c ≠ '\n')
    (hinner : inner.data ≠ [] ∧ ∀ c ∈ inner.data, c ≠ '\n')
    (hpost : ∀ c ∈ post.data, c ≠ ')' ∧ c ≠ '\n') :
    reSubParen f (pre ++ "(" ++ inner ++ ")" ++ post) =
      pre ++ f ("(" ++ inner ++ ")") ++ post := by
  have hdata : (pre ++ "(" ++ inner ++ ")" ++ post).data =
      pre.data ++ '(' :: (inner.data ++ ')' :: post.data) := by
    simp [String.data_append]
  have hnonl : ∀ c ∈ (pre ++ "(" ++ inner ++ ")" ++ post).data, c ≠ '\n' := by
    rw [hdata]
    intro c hc
    rcases List.mem_append.mp hc with hc | hc
    · exact (hpre c hc).2
    · rcases List.mem_cons.mp hc with hc | hc
      · simp [hc]
      · rcases List.mem_append.mp hc with hc | hc
        · exact hinner.2 c hc
        · rcases List.mem_cons.mp hc with hc | hc
          · simp [hc]
          · exact (hpost c hc).2
  apply String.ext
  show (((splitOnChar '\n' (pre ++ "(" ++ inner ++ ")" ++ post).data).map
      (lineSub f)).intersperse ['\n']).flatten = _
  rw [splitOnChar_eq_single _ _ hnonl]
  simp only [List.map_cons, List.map_nil, List.intersperse_singleton,
    List.flatten_cons, List.flatten_nil, List.append_nil]
  rw [hdata, lineSub_single f pre.data inner.data post.data
    (fun c hc => (hpre c hc).1) hinner.1 (fun c hc => (hpost c hc).1)]
  have harg : (⟨'(' :: (inner.data ++ [')'])⟩ : String) = "(" ++ inner ++ ")" := by
    apply String.ext
    simp [String.data_append]
  rw [harg]
  simp [String.data_append]

/-! ## Path lemmas for the hierarchy refinement -/

theorem neSlash_eq_true (c : Char) : neSlash c = true ↔ c ≠ '/' := by
  simp [neSlash]

theorem eqSlash_eq_true (c : Char) : eqSlash c = true ↔ c = '/' := by
  simp [eqSlash]

theorem dropWhile_append_of_all {α : Type} (P : α → Bool) (a b : List α)
    (h : ∀ x ∈ a, P x = true) : (a ++ b).dropWhile P = b.dropWhile P := by
  induction a with
  | nil => rfl
  | cons x a ih =>
    simp only [List.cons_append, List.dropWhile_cons, h x (List.mem_cons_self _ _),
      if_true]
    exact ih (fun y hy => h y (List.mem_cons_of_mem _ hy))

theorem goodPathCs_of_head (q : List Char) (c : Char) (h1 : q.reverse.head? = some c)
    (h2 : c ≠ '/') : goodPathCs q = true := by
  unfold goodPathCs
  cases hq : q.reverse with
  | nil => simp
  | cons x rest =>
    rw [hq] at h1
    simp only [List.head?_cons, Option.some.injEq] at h1
    subst h1
    simp only [List.take_succ_cons, Bool.not_eq_true']
    simp [List.cons_beq_cons, h2]

/-- On a good path `p`, appending a separator-free component and taking
`dirname` leads back to `p` as far as further joins are concerned. -/
theorem dirname_join_spec (p n s : List Char) (hn : n ≠ [])
    (hn2 : ∀ c ∈ n, c ≠ '/') (hs : ¬ (s.head? = some '/'))
    (hp : goodPathCs p = true) :
    joinCs (dirnameCs (joinCs p n)) s = joinCs p s := by
  have hbn : ¬ (n.head? = some '/') := by
    cases n with
    | nil => exact absurd rfl hn
    | cons n0 n1 =>
      simp only [List.head?_cons, Option.some.injEq]
      exact hn2 n0 (List.mem_cons_self _ _)
  have hnrev : ∀ x ∈ n.reverse, neSlash x = true := by
    intro x hx
    exact (neSlash_eq_true x).mpr (hn2 x (List.mem_reverse.mp hx))
  cases hrev : p.reverse with
  | nil =>
    have hpnil : p = [] := by
      have := congrArg List.reverse hrev
      simpa using this
    subst hpnil
    rw [show joinCs [] n = n by simp [joinCs, hbn]]
    have hr : n.reverse.dropWhile neSlash = [] := by
      have h0 := dropWhile_append_of_all neSlash n.reverse [] hnrev
      simpa using h0
    rw [show dirnameCs n = [] by simp [dirnameCs, hr]]
  | cons c rest =>
    have hpform : p = (c :: rest).reverse := by
      rw [← hrev, List.reverse_reverse]
    have hpne : p ≠ [] := by
      rw [hpform]; simp
    have hplast : p.getLast? = some c := by
      rw [← List.head?_reverse, hrev, List.head?_cons]
    by_cases hc : c = '/'
    · subst hc
      have hjoin : joinCs p n = p ++ n := by
        simp [joinCs, hbn, Or.inr hplast]
      have hr : (p ++ n).reverse.dropWhile neSlash = '/' :: rest := by
        rw [List.reverse_append, dropWhile_append_of_all _ _ _ hnrev, hrev]
        simp [List.dropWhile_cons, neSlash]
      by_cases hall : (('/' : Char) :: rest).all eqSlash = true
      · have hdir : dirnameCs (joinCs p n) = p := by
          rw [hjoin]
          simp only [dirnameCs, hr, hall, if_true]
          rw [← hrev, List.reverse_reverse]
        rw [hdir]
      · cases rest with
        | nil => simp [eqSlash] at hall
        | cons d rest2 =>
          have hd : d ≠ '/' := by
            intro hd
            subst hd
            rw [show goodPathCs p = false by
              unfold goodPathCs
              rw [hrev]
              simp] at hp
            exact absurd hp (by simp)
          have hdir : dirnameCs (joinCs p n) = (d :: rest2).reverse := by
            rw [hjoin]
            simp only [dirnameCs, hr]
            rw [if_neg hall]
            simp [List.dropWhile_cons, eqSlash, hd]
          rw [hdir]
          have hqne : (d :: rest2).reverse ≠ [] := by simp
          have hqlast : ((d :: rest2).reverse).getLast? = some d := by
            rw [← List.head?_reverse, List.reverse_reverse, List.head?_cons]
          have hql2 : ¬ (((d :: rest2).reverse) = [] ∨
              ((d :: rest2).reverse).getLast? = some '/') := by
            push_neg
            refine ⟨hqne, ?_⟩
            rw [hqlast]
            simp [hd]
          rw [show joinCs ((d :: rest2).reverse) s = (d :: rest2).reverse ++ '/' :: s by
            simp only [joinCs, if_neg hs]
            rw [if_neg hql2]]
          rw [show joinCs p s = p ++ s by simp [joinCs, hs, Or.inr hplast]]
          rw [hpform]
          simp
    · have hjoin : joinCs p n = p ++ '/' :: n := by
        have hng : ¬ (p = [] ∨ p.getLast? = some '/') := by
          push_neg
          refine ⟨hpne, ?_⟩
          rw [hplast]
          simp [hc]
        simp only [joinCs, if_neg hbn]
        rw [if_neg hng]
      have hr : (p ++ '/' :: n).reverse.dropWhile neSlash =
          '/' :: p.reverse := by
        rw [show (p ++ '/' :: n).reverse = n.reverse ++ '/' :: p.reverse by simp]
        rw [dropWhile_append_of_all _ _ _ hnrev]
        simp [List.dropWhile_cons, neSlash]
      have hall : ¬ ((('/' : Char) :: p.reverse).all eqSlash = true) := by
        rw [hrev]
        simp only [List.all_cons, Bool.and_eq_true]
        intro hcontra
        have h2 := hcontra.2
        simp only [List.all_cons, Bool.and_eq_true] at h2
        exact absurd ((eqSlash_eq_true c).mp h2.1) hc
      have hdir : dirnameCs (joinCs p n) = p := by
        rw [hjoin]
        simp only [dirnameCs, hr]
        rw [if_neg hall, hrev]
        simp only [List.dropWhile_cons]
        rw [show eqSlash '/' = true by simp [eqSlash]]
        simp only [if_true, List.dropWhile_cons]
        rw [show eqSlash c = false by simp [eqSlash, hc]]
        simp [← hrev]
      rw [hdir]

theorem goodPath_join (p n : List Char) (hn : n ≠ [])
    (hn2 : ∀ c ∈ n, c ≠ '/') : goodPathCs (joinCs p n) = true := by
  cases hnr : n.reverse with
  | nil =>
    exact absurd (by simpa using congrArg List.reverse hnr) hn
  | cons c t =>
    have hc : c ≠ '/' :=
      hn2 c (List.mem_reverse.mp (hnr ▸ List.mem_cons_self c t))
    have hhead : (joinCs p n).reverse.head? = some c := by
      unfold joinCs
      split
      · rw [hnr]; rfl
      · split
        · rw [List.reverse_append, hnr]; rfl
        · rw [show p ++ '/' :: n = (p ++ ['/']) ++ n by simp]
          rw [List.reverse_append, hnr]; rfl
    exact goodPathCs_of_head _ c hhead hc

theorem nameOk_facts (n : String) (h : nameOk n = true) :
    n.data ≠ [] ∧ ∀ c ∈ n.data, c ≠ '/' := by
  simp only [nameOk, Bool.and_eq_true, Bool.not_eq_true', List.all_eq_true] at h
  refine ⟨?_, fun c hc => (neSlash_eq_true c).mp (h.2 c hc)⟩
  intro hc
  rw [hc] at h
  simp at h

theorem dirname_pathJoin_index (p n : String) (hn : nameOk n = true)
    (hp : goodPath p = true) :
    pathJoin (dirname (pathJoin p n)) "index.md" = pathJoin p "index.md" := by
  obtain ⟨h1, h2⟩ := nameOk_facts n hn
  exact String.ext (dirname_join_spec p.data n.data ("index.md".data) h1 h2
    (by decide) hp)

theorem goodPath_pathJoin (p n : String) (hn : nameOk n = true) :
    goodPath (pathJoin p n) = true := by
  obtain ⟨h1, h2⟩ := nameOk_facts n hn
  exact goodPath_join p.data n.data h1 h2

/-! ## The walk refines the spec-side hierarchy -/

theorem hierarchyOfEntries_pos (es : List (String × List String)) :
    ∀ i j, i ≠ 0 → j ≠ 0 → hierarchyOfEntries i es = hierarchyOfEntries j es := by
  induction es with
  | nil => intros; rfl
  | cons e rest ih =>
    intro i j hi hj
    obtain ⟨dp, fs⟩ := e
    simp only [hierarchyOfEntries, if_neg hi, if_neg hj]
    rw [ih (i + 1) (j + 1) (by omega) (by omega)]

mutual
theorem refineTree (t : DirTree) : ∀ (p : String),
    goodPath p = true → namesOkT t = true →
    hierarchyOfEntries 1 (osWalk p t) =
      specTree p false (pathJoin (dirname p) "index.md") t := by
  cases t with
  | mk name files subs =>
    intro p hp hok
    simp only [osWalk, hierarchyOfEntries, specTree, Nat.one_ne_zero, if_false]
    congr 1
    congr 1
    rw [hierarchyOfEntries_pos _ (1 + 1) 1 (by omega) (by omega)]
    exact refineForest subs p true hp (by simpa [namesOkT] using hok)

theorem refineForest (fo : Forest) : ∀ (p : String) (b : Bool),
    goodPath p = true → namesOkF fo = true →
    hierarchyOfEntries 1 (walkForest p b fo) =
      specForest p (pathJoin p "index.md") b fo := by
  cases fo with
  | nil => intro p b hp hok; rfl
  | cons d ds =>
    intro p b hp hok
    simp only [namesOkF, Bool.and_eq_true] at hok
    obtain ⟨⟨hname, hdok⟩, hdsok⟩ := hok
    by_cases hskip : (b && decide (d.name = ".git")) = true
    · simp only [walkForest, specForest, hskip, if_true]
      exact refineForest ds p false hp hdsok
    · simp only [walkForest, specForest, if_neg hskip]
      rw [hierarchyOfEntries_append,
        refineTree d (pathJoin p d.name) (goodPath_pathJoin p d.name hname) hdok,
        dirname_pathJoin_index p d.name hname hp]
      congr 1
      rw [hierarchyOfEntries_pos _ (1 + (osWalk (pathJoin p d.name) d).length) 1
        (by omega) (by omega)]
      exact refineForest ds p b hp hdsok
end

/-- For a real filesystem, `build_local_hierarchy` produces exactly the
spec-side hierarchy: the root descriptor, then per directory a node
descriptor whose parent is its parent directory's index path, and per
Markdown file a leaf descriptor whose parent is its directory's node. -/
theorem build_eq_spec (path : String) (t : DirTree)
    (hp : goodPath path = true) (hok : namesOkT t = true) :
    build_local_hierarchy path t = specHierarchy path t := by
  cases t with
  | mk name files subs =>
    simp only [build_local_hierarchy, osWalk, hierarchyOfEntries, specHierarchy,
      specTree, if_pos rfl, if_pos trivial]
    congr 1
    congr 1
    exact refineForest subs path true hp (by simpa [namesOkT] using hok)

/-! ## Referential integrity of the spec-side hierarchy -/

theorem checkParents_append (a : List Page) : ∀ (seen : List String) (b : List Page),
    checkParents seen (a ++ b) =
      (checkParents seen a && checkParents (namesAcc a seen) b) := by
  induction a with
  | nil => intro seen b; simp [checkParents, namesAcc]
  | cons pg rest ih =>
    intro seen b
    simp only [List.cons_append, checkParents, ih, namesAcc, List.foldl_cons,
      Bool.and_assoc, List.append_eq]

theorem mem_namesAcc_of_mem (a : List Page) :
    ∀ (seen : List String) (x : String), x ∈ seen → x ∈ namesAcc a seen := by
  induction a with
  | nil => intro seen x hx; exact hx
  | cons pg rest ih =>
    intro seen x hx
    exact ih (pg.filename :: seen) x (List.mem_cons_of_mem _ hx)

theorem checkParents_mono (l : List Page) :
    ∀ (seen seen2 : List String), (∀ x, x ∈ seen → x ∈ seen2) →
      checkParents seen l = true → checkParents seen2 l = true := by
  induction l with
  | nil => intros; rfl
  | cons pg rest ih =>
    intro seen seen2 hsub h
    simp only [checkParents, Bool.and_eq_true] at h ⊢
    refine ⟨?_, ih (pg.filename :: seen) (pg.filename :: seen2) ?_ h.2⟩
    · rcases Bool.or_eq_true_iff.mp h.1 with h1 | h1
      · exact Bool.or_eq_true_iff.mpr (Or.inl h1)
      · refine Bool.or_eq_true_iff.mpr (Or.inr ?_)
        exact List.elem_eq_true_of_mem
          (hsub _ (List.mem_of_elem_eq_true h1))
    · intro x hx
      rcases List.mem_cons.mp hx with hx | hx
      · exact hx ▸ List.mem_cons_self _ _
      · exact List.mem_cons_of_mem _ (hsub x hx)

theorem checkParents_of_all (l : List Page) :
    ∀ (seen : List String),
      (∀ pg ∈ l, pg.parent_filename = "" ∨ pg.parent_filename ∈ seen) →
      checkParents seen l = true := by
  induction l with
  | nil => intros; rfl
  | cons pg rest ih =>
    intro seen h
    simp only [checkParents, Bool.and_eq_true]
    constructor
    · rcases h pg (List.mem_cons_self _ _) with h1 | h1
      · exact Bool.or_eq_true_iff.mpr (Or.inl (by simp [h1]))
      · exact Bool.or_eq_true_iff.mpr (Or.inr (List.elem_eq_true_of_mem h1))
    · refine ih (pg.filename :: seen) ?_
      intro q hq
      rcases h q (List.mem_cons_of_mem _ hq) with h1 | h1
      · exact Or.inl h1
      · exact Or.inr (List.mem_cons_of_mem _ h1)

mutual
theorem checkSpecTree (t : DirTree) : ∀ (p pi : String) (b : Bool)
    (seen : List String), (b = true ∨ pi ∈ seen) →
    checkParents seen (specTree p b pi t) = true := by
  cases t with
  | mk name files subs =>
    intro p pi b seen hpi
    simp only [specTree, checkParents]
    rw [Bool.and_eq_true]
    constructor
    · by_cases hb : b = true
      · subst hb
        simp
      · have hpi2 : pi ∈ seen := hpi.resolve_left hb
        have hb2 : b = false := Bool.not_eq_true b |>.mp hb
        subst hb2
        rw [if_neg (by simp : ¬ (false = true))]
        exact Bool.or_eq_true_iff.mpr (Or.inr (List.elem_eq_true_of_mem hpi2))
    · have hfn : ((if b then Page.mk .ROOT "" (pathJoin p "index.md")
          else Page.mk .NODE pi (pathJoin p "index.md"))).filename =
          pathJoin p "index.md" := by
        cases b <;> rfl
      rw [hfn, checkParents_append, Bool.and_eq_true]
      constructor
      · refine checkParents_of_all _ _ ?_
        intro pg hpg
        obtain ⟨f, hf, hpg⟩ := List.mem_map.mp hpg
        right
        rw [← hpg]
        exact List.mem_cons_self _ _
      · refine checkSpecForest subs p (pathJoin p "index.md") true _ ?_
        exact mem_namesAcc_of_mem _ _ _ (List.mem_cons_self _ _)

theorem checkSpecForest (fo : Forest) : ∀ (p pi : String) (b : Bool)
    (seen : List String), pi ∈ seen →
    checkParents seen (specForest p pi b fo) = true := by
  cases fo with
  | nil => intro p pi b seen hpi; rfl
  | cons d ds =>
    intro p pi b seen hpi
    by_cases hskip : (b && decide (d.name = ".git")) = true
    · simp only [specForest, hskip, if_true]
      exact checkSpecForest ds p pi false seen hpi
    · simp only [specForest, if_neg hskip]
      rw [checkParents_append, Bool.and_eq_true]
      exact ⟨checkSpecTree d (pathJoin p d.name) pi false seen (Or.inr hpi),
        checkSpecForest ds p pi b _ (mem_namesAcc_of_mem _ _ _ hpi)⟩
end

/-! ## Root uniqueness -/

theorem countP_leafMap_root (node dirpath : String) (fs : List String) :
    ((fs.map (fun f => Page.mk .LEAVE node (pathJoin dirpath f))).countP
      (fun pg => pg.type == PageType.ROOT)) = 0 := by
  induction fs with
  | nil => rfl
  | cons f rest ih => simp [ih]

mutual
theorem countRoot_tree (t : DirTree) :
    ∀ (p : String) (i : Nat),
      ((hierarchyOfEntries (i + 1) (osWalk p t)).countP
        (fun pg => pg.type == PageType.ROOT)) = 0 := by
  cases t with
  | mk name files subs =>
    intro p i
    simp only [osWalk, hierarchyOfEntries, Nat.succ_ne_zero, if_false]
    simp only [List.countP_cons, List.countP_append, countP_leafMap_root]
    have hf := countRoot_forest subs p true (i + 1)
    simp [hf]

theorem countRoot_forest (fo : Forest) :
    ∀ (p : String) (b : Bool) (i : Nat),
      ((hierarchyOfEntries (i + 1) (walkForest p b fo)).countP
        (fun pg => pg.type == PageType.ROOT)) = 0 := by
  cases fo with
  | nil => intro p b i; rfl
  | cons d ds =>
    intro p b i
    by_cases hskip : (b && decide (d.name = ".git")) = true
    · simp only [walkForest, hskip, if_true]
      exact countRoot_forest ds p false i
    · simp only [walkForest, if_neg hskip]
      rw [hierarchyOfEntries_append]
      simp only [List.countP_append]
      rw [countRoot_tree d, show i + 1 + (osWalk (pathJoin p d.name) d).length =
        (i + (osWalk (pathJoin p d.name) d).length) + 1 by omega]
      rw [countRoot_forest ds]
end

/-! ## Claim theorems -/

/-- C3: for every hierarchy and complete mapping, `move_pages_notion_hierarchy`
iterates the hierarchy in reverse order, skips the root, and issues
exactly one move per remaining descriptor, moving its page to be the
first child of the handle mapped to its `parent_filename` — the emitted
move calls are exactly the reversed hierarchy's, in that order. -/
theorem C3_move_pages_reverse_order (hierarchy : List Page)
    (m : List (String × Handle))
    (hcomplete : ∀ pg ∈ hierarchy, pg.type ≠ .ROOT →
      (m.lookup pg.parent_filename).isSome ∧ (m.lookup pg.filename).isSome) :
    move_pages_notion_hierarchy hierarchy m =
      .ok (hierarchy.reverse.filterMap (moveEventOf m)) :=
  movePagesLoop_ok m hierarchy.reverse
    (fun pg hpg => hcomplete pg (List.mem_reverse.mp hpg))

/-- Witness for C3 on the claim's tree `root > a > a/b.md`: `a/b.md`'s
page moves first, then `a`'s (before the loop reaches — and skips — the
root), i.e. strict reverse-hierarchy order. -/
theorem C3_witness :
    (∀ pg ∈ build_local_hierarchy "root" exMoveTree, pg.type ≠ .ROOT →
      (exMoveMap.lookup pg.parent_filename).isSome ∧
        (exMoveMap.lookup pg.filename).isSome) ∧
    move_pages_notion_hierarchy (build_local_hierarchy "root" exMoveTree) exMoveMap =
      .ok [⟨.page 2, .page 1, "first-child"⟩, ⟨.page 1, .page 0, "first-child"⟩] :=
  ⟨by decide,
    (C3_move_pages_reverse_order _ _ (by decide)).trans
      (congrArg Except.ok (by decide))⟩

/-- C4: the move phase raises (fails loudly) exactly when some non-root
descriptor's `parent_filename` or `filename` is missing from the
mapping; when every lookup succeeds no error is raised. -/
theorem C4_move_pages_error_iff (hierarchy : List Page)
    (m : List (String × Handle)) :
    move_pages_notion_hierarchy hierarchy m = .error () ↔
      ∃ pg ∈ hierarchy, pg.type ≠ .ROOT ∧
        (m.lookup pg.parent_filename = none ∨ m.lookup pg.filename = none) := by
  rw [move_pages_notion_hierarchy, movePagesLoop_error_iff]
  constructor
  · rintro ⟨pg, hpg, hprop⟩
    exact ⟨pg, List.mem_reverse.mp hpg, hprop⟩
  · rintro ⟨pg, hpg, hprop⟩
    exact ⟨pg, List.mem_reverse.mpr hpg, hprop⟩

/-- C5: resolving the matched reference `(./sibling.md)` inside
`a/index.md` yields the browseable URL of the mapping's entry for the
normalized path `a/sibling.md` when present, and the original literal
`(./sibling.md)` when absent — for every mapping. -/
theorem C5_relative_link_roundtrip (m : List (String × Handle))
    (url : Handle → String) (dir : String) (roots : List String) :
    resolve_link "(./sibling.md)" pageAIndex m url dir roots =
      "(" ++ (match m.lookup "a/sibling.md" with
              | some h => url h
              | none => "./sibling.md") ++ ")" := rfl

/-- C10: a reference that does not begin with the exact prefix `./` is
never resolved against the current document's directory — the result
does not depend on the page at all — and when no wiki root matches it
either, it is returned verbatim wrapped in parentheses. -/
theorem C10_non_relative_refs (ref : String) (page page2 : Page)
    (m : List (String × Handle)) (url : Handle → String) (dir : String)
    (roots : List String) (h : strStartsWith ref "./" = false) :
    (resolve_link ("(" ++ ref ++ ")") page m url dir roots =
       resolve_link ("(" ++ ref ++ ")") page2 m url dir roots) ∧
    ((∀ root ∈ roots, resolve_github_wiki_link ref root dir = none) →
       resolve_link ("(" ++ ref ++ ")") page m url dir roots = "(" ++ ref ++ ")") := by
  have hin : (⟨(("(" ++ ref ++ ")").data.drop 1).dropLast⟩ : String) = ref :=
    String.ext (wrapped_inner ref)
  constructor
  · simp only [resolve_link, hin, h, Bool.false_eq_true, if_false]
  · intro hroots
    simp only [resolve_link, hin, h, Bool.false_eq_true, if_false,
      firstWikiHit_eq_none ref dir roots hroots]

/-- Witness for C10: `../sibling.md` (not starting with `./`) is left
verbatim even though resolving it against the document's directory
would have hit the mapping. -/
theorem C10_witness :
    strStartsWith "../sibling.md" "./" = false ∧
    resolve_link "(../sibling.md)" ⟨.NODE, "index.md", "a/index.md"⟩
        [("sibling.md", .page 0), ("a/sibling.md", .page 1)]
        (fun _ => "URL") "d" ["https://example.com/proj/wiki"] =
      "(../sibling.md)" :=
  ⟨by decide,
    (C10_non_relative_refs "../sibling.md" ⟨.NODE, "index.md", "a/index.md"⟩
      ⟨.NODE, "index.md", "a/index.md"⟩
      [("sibling.md", .page 0), ("a/sibling.md", .page 1)]
      (fun _ => "URL") "d" ["https://example.com/proj/wiki"] (by decide)).2
      (by decide)⟩

/-- C8: for every directory tree, `build_local_hierarchy` produces one
`NODE`-or-`ROOT` descriptor per directory the walk visits (the root
included) and one `LEAVE` descriptor per visited file whose name ends
in `.md` and is not `index.md`. -/
theorem C8_descriptor_counts (path : String) (t : DirTree) :
    ((build_local_hierarchy path t).countP
      (fun pg => pg.type == PageType.NODE || pg.type == PageType.ROOT)) = numDirs t ∧
    ((build_local_hierarchy path t).countP
      (fun pg => pg.type == PageType.LEAVE)) = numMdFiles t := by
  cases t with
  | mk name files subs =>
    constructor
    · simp only [build_local_hierarchy, osWalk, hierarchyOfEntries, numDirs]
      simp only [List.countP_cons, List.countP_append, countP_leafMap_node]
      have hf := countNode_forest subs path true 0
      simp only [Nat.zero_add] at hf
      simp [hf]
      omega
    · simp only [build_local_hierarchy, osWalk, hierarchyOfEntries, numMdFiles]
      simp only [List.countP_cons, List.countP_append, countP_leafMap_leave]
      have hf := countLeave_forest subs path true 0
      simp only [Nat.zero_add] at hf
      simp [hf]

/-- C1: on every real directory tree (non-empty separator-free entry
names; a root path without a trailing doubled separator),
`build_local_hierarchy` produces exactly the spec-side hierarchy — so
every `NODE`'s `parent_filename` is its parent directory's index path
and every `LEAVE`'s is its containing directory's node filename —
moreover every non-empty `parent_filename` equals the `filename` of a
strictly earlier descriptor, and exactly one descriptor is the
`ROOT`. -/
theorem C1_hierarchy_invariants (path : String) (t : DirTree)
    (hpath : goodPath path = true) (hnames : namesOkT t = true) :
    build_local_hierarchy path t = specHierarchy path t ∧
    checkParents [] (build_local_hierarchy path t) = true ∧
    (build_local_hierarchy path t).countP
      (fun pg => pg.type == PageType.ROOT) = 1 := by
  have heq := build_eq_spec path t hpath hnames
  refine ⟨heq, ?_, ?_⟩
  · rw [heq]
    exact checkSpecTree t path "" true [] (Or.inl rfl)
  · cases t with
    | mk name files subs =>
      simp only [build_local_hierarchy, osWalk, hierarchyOfEntries, if_pos rfl]
      simp only [List.countP_cons, List.countP_append, countP_leafMap_root]
      have hf := countRoot_forest subs path true 0
      simp only [Nat.zero_add] at hf
      simp [hf]

/-- Witness for C1 on `exC1Tree`. -/
theorem C1_witness :
    (goodPath "proj" = true ∧ namesOkT exC1Tree = true) ∧
    (build_local_hierarchy "proj" exC1Tree = specHierarchy "proj" exC1Tree ∧
     checkParents [] (build_local_hierarchy "proj" exC1Tree) = true ∧
     (build_local_hierarchy "proj" exC1Tree).countP
       (fun pg => pg.type == PageType.ROOT) = 1) :=
  ⟨⟨by decide, by decide⟩,
    C1_hierarchy_invariants "proj" exC1Tree (by decide) (by decide)⟩

/-- C2: `create_notion_hierarchy` creates the root descriptor's remote
page under the externally supplied root parent (`Handle.ext`); when
`flat` it creates every other descriptor's page as an immediate child of
the already-created root's handle (`page 0`), and otherwise under the
handle the mapping assigns to the descriptor's `parent_filename`; after
each creation the returned handle (`page k` for the k-th call) is
recorded in the mapping under the descriptor's `filename`.  The
hierarchy is assumed well-formed as the claim presupposes: the root
first, no second root, distinct filenames, and (for the non-flat
lookups) every `parent_filename` bound by an earlier `filename`. -/
theorem C2_create_phase (r : Page) (rest : List Page) (flat : Bool)
    (hr : r.type = .ROOT) (hrest : ∀ pg ∈ rest, pg.type ≠ .ROOT)
    (hnd : ((r :: rest).map Page.filename).Nodup)
    (hpar : parentsBound [r.filename] rest = true) :
    ∃ evs, create_notion_hierarchy flat (r :: rest) = Except.ok
      { mapping := (createdHandles 0 (r :: rest)).reverse
        root_notion_page := some (.page 0)
        next := (r :: rest).length
        events := ⟨.ext, r.title, .page 0⟩ :: evs } ∧
      (flat = true → evs = flatChildEvents (.page 0) 1 rest) ∧
      (flat = false →
        nestedEventsVia ((createdHandles 0 (r :: rest)).reverse) 1 rest = some evs) := by
  have hstep : ∀ fl, createStep fl
      (⟨[], none, 0, []⟩ : CState) r = Except.ok
      (⟨[(r.filename, Handle.page 0)], some (Handle.page 0), 1,
        [CreateEvent.mk Handle.ext r.title (Handle.page 0)]⟩ : CState) := by
    intro fl
    simp [createStep, hr]
  have hmapeq : (createdHandles 1 rest).reverse ++ [(r.filename, Handle.page 0)] =
      (createdHandles 0 (r :: rest)).reverse := by
    simp [createdHandles]
  cases flat
  · obtain ⟨evs, hrun, hvia⟩ := create_nested_run rest
      ⟨[(r.filename, Handle.page 0)], some (Handle.page 0), 1,
        [CreateEvent.mk Handle.ext r.title (Handle.page 0)]⟩
      hrest (by simpa using hpar) (by simpa using hnd)
    refine ⟨evs, ?_, by simp, fun _ => ?_⟩
    · rw [create_notion_hierarchy, List.foldlM_cons, hstep false]
      show List.foldlM (createStep false)
        (⟨[(r.filename, Handle.page 0)], some (Handle.page 0), 1,
          [CreateEvent.mk Handle.ext r.title (Handle.page 0)]⟩ : CState) rest = _
      rw [hrun]
      simp only [Except.ok.injEq, CState.mk.injEq]
      refine ⟨by simpa using hmapeq, trivial, by simp; omega, by simp⟩
    · rw [← hmapeq]
      simpa using hvia
  · refine ⟨flatChildEvents (.page 0) 1 rest, ?_, fun _ => rfl, by simp⟩
    rw [create_notion_hierarchy, List.foldlM_cons, hstep true]
    show List.foldlM (createStep true)
      (⟨[(r.filename, Handle.page 0)], some (Handle.page 0), 1,
        [CreateEvent.mk Handle.ext r.title (Handle.page 0)]⟩ : CState) rest = _
    rw [create_flat_run rest _ (Handle.page 0) rfl hrest]
    simp only [Except.ok.injEq, CState.mk.injEq]
    refine ⟨by simpa using hmapeq, trivial, by simp; omega, by simp⟩

/-- Witness for C2 on the tree `root > a > a/b.md`, flat mode. -/
theorem C2_witness :
    ((⟨.ROOT, "", "root/index.md"⟩ : Page).type = .ROOT ∧
      (∀ pg ∈ [(⟨.NODE, "root/index.md", "root/a/index.md"⟩ : Page),
        ⟨.LEAVE, "root/a/index.md", "root/a/b.md"⟩], pg.type ≠ .ROOT) ∧
      (([(⟨.ROOT, "", "root/index.md"⟩ : Page),
        ⟨.NODE, "root/index.md", "root/a/index.md"⟩,
        ⟨.LEAVE, "root/a/index.md", "root/a/b.md"⟩].map Page.filename).Nodup) ∧
      parentsBound ["root/index.md"]
        [⟨.NODE, "root/index.md", "root/a/index.md"⟩,
         ⟨.LEAVE, "root/a/index.md", "root/a/b.md"⟩] = true) ∧
    (∃ evs, create_notion_hierarchy true
        [⟨.ROOT, "", "root/index.md"⟩,
         ⟨.NODE, "root/index.md", "root/a/index.md"⟩,
         ⟨.LEAVE, "root/a/index.md", "root/a/b.md"⟩] = Except.ok
        { mapping := (createdHandles 0
            [(⟨.ROOT, "", "root/index.md"⟩ : Page),
             ⟨.NODE, "root/index.md", "root/a/index.md"⟩,
             ⟨.LEAVE, "root/a/index.md", "root/a/b.md"⟩]).reverse
          root_notion_page := some (.page 0)
          next := 3
          events := ⟨.ext, Page.title ⟨.ROOT, "", "root/index.md"⟩, .page 0⟩ :: evs }
        ∧ (true = true → evs = flatChildEvents (.page 0) 1
            [⟨.NODE, "root/index.md", "root/a/index.md"⟩,
             ⟨.LEAVE, "root/a/index.md", "root/a/b.md"⟩])
        ∧ (true = false → nestedEventsVia ((createdHandles 0
            [(⟨.ROOT, "", "root/index.md"⟩ : Page),
             ⟨.NODE, "root/index.md", "root/a/index.md"⟩,
             ⟨.LEAVE, "root/a/index.md", "root/a/b.md"⟩]).reverse) 1
            [⟨.NODE, "root/index.md", "root/a/index.md"⟩,
             ⟨.LEAVE, "root/a/index.md", "root/a/b.md"⟩] = some evs)) :=
  ⟨⟨rfl, by decide, by decide, by decide⟩,
    C2_create_phase ⟨.ROOT, "", "root/index.md"⟩
      [⟨.NODE, "root/index.md", "root/a/index.md"⟩,
       ⟨.LEAVE, "root/a/index.md", "root/a/b.md"⟩] true rfl
      (by decide) (by decide) (by decide)⟩

/-- Counterexample to C6: the code's test is a plain string-prefix test
on the full reference against the (slash-ensured) wiki root, not a test
on URL-decoded paths, and the "stripping" is a delete-all-occurrences
replace.  Conjunct 1/2: a reference on another host whose URL-decoded
path does start with the wiki root's URL-decoded path produces no
candidate at all.  Conjunct 3: when the wiki root's decoded path occurs
twice in the reference's decoded path, every occurrence is deleted, so
the candidate is not the prefix-stripped remainder `d/a/w/b.md`. -/
theorem C6_counterexample :
    (strStartsWith (unquote (urlPath "https://other.example/proj/wiki/Page"))
        (unquote (urlPath "https://example.com/proj/wiki/")) = true ∧
      resolve_github_wiki_link "https://other.example/proj/wiki/Page"
        "https://example.com/proj/wiki" "d" = none) ∧
    resolve_github_wiki_link "https://e.com/w/a/w/b" "https://e.com/w" "d" =
      some "d/ab.md" := by
  decide

/-- C6 as amended: when the reference starts (as a string) with the
wiki root (with a trailing `/` ensured), the candidate key is obtained
by deleting every occurrence of the wiki root's URL-decoded path from
the reference's URL-decoded path, appending `.md`, and joining the
result onto the resolution base directory. -/
theorem C6_wiki_link_candidate (ref root dir : String)
    (h : strStartsWith ref
      (if strEndsWith root "/" then root else root ++ "/") = true) :
    resolve_github_wiki_link ref root dir =
      some (pathJoin dir
        (strReplace (unquote (urlPath ref))
          (unquote (urlPath (if strEndsWith root "/" then root else root ++ "/")))
          "" ++ ".md")) := by
  simp only [resolve_github_wiki_link, h, if_true]

/-- Witness for C6 (the claim's own example): for wiki root
`https://example.com/proj/wiki` and reference
`https://example.com/proj/wiki/Some%20Page`, the candidate local key is
`docs/Some Page.md`. -/
theorem C6_witness :
    strStartsWith "https://example.com/proj/wiki/Some%20Page"
      (if strEndsWith "https://example.com/proj/wiki" "/" then
        "https://example.com/proj/wiki" else "https://example.com/proj/wiki" ++ "/") = true ∧
    resolve_github_wiki_link "https://example.com/proj/wiki/Some%20Page"
      "https://example.com/proj/wiki" "docs" = some "docs/Some Page.md" :=
  ⟨by decide,
    (C6_wiki_link_candidate "https://example.com/proj/wiki/Some%20Page"
      "https://example.com/proj/wiki" "docs" (by decide)).trans (by decide)⟩

/-- Counterexample to C7: the pattern `\(.+\)` is greedy, so two
references on one line are swallowed by a single match running to the
line's last `)`.  In `"(./x.md) and (./y.md)"` (page `d/f.md`, mapping
holding `d/x.md`), resolving each parenthesized reference individually
(the claim, `update_link_content_each_ref`) rewrites the first
reference, but the code (`update_link_content`) extracts the single
reference `./x.md) and (./y.md`, fails to resolve it, and leaves the
text unchanged. -/
theorem C7_counterexample :
    update_link_content "(./x.md) and (./y.md)" ⟨.LEAVE, "d/index.md", "d/f.md"⟩
        [("d/x.md", .page 0)] (fun _ => "NURL") "d" [] =
      "(./x.md) and (./y.md)" ∧
    update_link_content_each_ref "(./x.md) and (./y.md)"
        ⟨.LEAVE, "d/index.md", "d/f.md"⟩
        [("d/x.md", .page 0)] (fun _ => "NURL") "d" [] =
      "(NURL) and (./y.md)" ∧
    ("(./x.md) and (./y.md)" : String) ≠ "(NURL) and (./y.md)" := by
  refine ⟨by decide, by decide, by decide⟩

/-- C7 as amended: the rewriting pass substitutes, per line, the single
greedy span from the line's first `(` to its last `)` (with at least one
character in between), resolving its interior as one reference and
leaving the text around it unchanged; in particular a line holding
exactly one parenthesized reference is individually resolved, but
several references on one line are merged into one span. -/
theorem C7_link_rewriting (pre inner post : String) (page : Page)
    (m : List (String × Handle)) (url : Handle → String) (dir : String)
    (roots : List String)
    (hpre : ∀ c ∈ pre.data, c ≠ '(' ∧ c ≠ '\n')
    (hinner : inner.data ≠ [] ∧ ∀ c ∈ inner.data, c ≠ '\n')
    (hpost : ∀ c ∈ post.data, c ≠ ')' ∧ c ≠ '\n') :
    update_link_content (pre ++ "(" ++ inner ++ ")" ++ post) page m url dir roots =
      pre ++ resolve_link ("(" ++ inner ++ ")") page m url dir roots ++ post :=
  reSubParen_single _ pre inner post hpre hinner hpost

/-- Witness for C7: a line with one reference, `"See (./x.md) here"` in
page `d/f.md`, has exactly that reference resolved and the rest kept. -/
theorem C7_witness :
    (∀ c ∈ ("See " : String).data, c ≠ '(' ∧ c ≠ '\n') ∧
    (("./x.md" : String).data ≠ [] ∧ ∀ c ∈ ("./x.md" : String).data, c ≠ '\n') ∧
    (∀ c ∈ (" here" : String).data, c ≠ ')' ∧ c ≠ '\n') ∧
    update_link_content ("See " ++ "(" ++ "./x.md" ++ ")" ++ " here")
        ⟨.LEAVE, "d/index.md", "d/f.md"⟩ [("d/x.md", .page 0)]
        (fun _ => "NURL") "d" [] = "See (NURL) here" :=
  ⟨by decide, by decide, by decide,
    (C7_link_rewriting "See " "./x.md" " here" ⟨.LEAVE, "d/index.md", "d/f.md"⟩
      [("d/x.md", .page 0)] (fun _ => "NURL") "d" []
      (by decide) (by decide) (by decide)).trans (by decide)⟩

/-- Counterexample to C9: an I/O error while writing the scratch file is
not caught by anything — the step aborts with no import attempt at all,
rather than retrying the import against an empty scratch file. -/
theorem C9_counterexample :
    uploadPageStep true false false "t" = ([], true) := by
  decide

/-- C9 as amended: only an `IOError` raised by the import call itself is
retried, exactly once, against an empty scratch file; if the retry also
raises, the error is fatal; a failure writing the scratch file is not
caught and aborts the step with no import attempt; after a successful
upload (original import or retry) the page's title is re-set. -/
theorem C9_upload_retry (writeRaises firstRaises retryRaises : Bool)
    (title : String) :
    (writeRaises = true → uploadPageStep writeRaises firstRaises retryRaises title = ([], true)) ∧
    (writeRaises = false → firstRaises = false →
      uploadPageStep writeRaises firstRaises retryRaises title =
        ([.importAttempt .content, .setTitle title], false)) ∧
    (writeRaises = false → firstRaises = true → retryRaises = false →
      uploadPageStep writeRaises firstRaises retryRaises title =
        ([.importAttempt .content, .importAttempt .empty, .setTitle title], false)) ∧
    (writeRaises = false → firstRaises = true → retryRaises = true →
      uploadPageStep writeRaises firstRaises retryRaises title =
        ([.importAttempt .content, .importAttempt .empty], true)) := by
  cases writeRaises <;> cases firstRaises <;> cases retryRaises <;>
    simp [uploadPageStep, export_notion_page, andThenEff, tryExceptIOError,
      attemptImport]

/-- Witness for C9: a first-import failure with a succeeding retry —
the import is retried once against the empty payload and the title is
re-set afterwards. -/
theorem C9_witness :
    (false = true → uploadPageStep false true false "t" = ([], true)) ∧
    (false = false → true = false →
      uploadPageStep false true false "t" =
        ([.importAttempt .content, .setTitle "t"], false)) ∧
    (false = false → true = true → false = false →
      uploadPageStep false true false "t" =
        ([.importAttempt .content, .importAttempt .empty, .setTitle "t"], false)) ∧
    (false = false → true = true → false = true →
      uploadPageStep false true false "t" =
        ([.importAttempt .content, .importAttempt .empty], true)) :=
  C9_upload_retry false true false "t"

end NotionTree
